import Mathlib

/-!
# Verification of the express-cli project generator (`bin/express-cli.js`)

A shallow embedding, in Lean 4, of the pure decision logic of the
scaffolding tool: app-name normalization (`createAppName`), POSIX path
resolution used by `main`, the package-manifest construction performed by
`createApplication`, the interactive-confirmation classifier (`confirm`),
the glob filter of `copyTemplateMulti`, and the pre-check/abort flow of
`main`.  JavaScript strings are modelled as `List Char` (code points; all
characters that the logic inspects are ASCII, where code points coincide
with UTF-16 code units), JavaScript objects whose property order matters
are modelled as association lists in property (insertion) order.
-/

namespace ExpressCli

/-! ## Character classes used by `createAppName` and path handling

The regexes of `createAppName` compare code units; we express the classes
directly on `Char.toNat`.  `45 = '-'`, `46 = '.'`, `47 = '/'`, `95 = '_'`,
`48`–`57` are the digits, `65`–`90` the uppercase and `97`–`122` the
lowercase ASCII letters. -/

/-- The class `[A-Za-z0-9.-]` of the first `replace` in `createAppName`
(its complement is what gets squashed to a single `-`). -/
def allowedChar (c : Char) : Bool :=
  (65 ≤ c.toNat && c.toNat ≤ 90) || (97 ≤ c.toNat && c.toNat ≤ 122) ||
  (48 ≤ c.toNat && c.toNat ≤ 57) || c.toNat == 46 || c.toNat == 45

/-- The class `[-_.]` of leading characters stripped by the second
`replace` in `createAppName`. -/
def sepChar (c : Char) : Bool :=
  c.toNat == 45 || c.toNat == 95 || c.toNat == 46

/-- A dash, as produced by the squashing `replace`. -/
def dashChar (c : Char) : Bool := c.toNat == 45

/-- The path separator `/`. -/
def slashChar (c : Char) : Bool := c.toNat == 47

/-- The character class `[a-z0-9.-]` that the specification asserts for
the final normalized app name. -/
def finalNameChar (c : Char) : Bool :=
  (97 ≤ c.toNat && c.toNat ≤ 122) || (48 ≤ c.toNat && c.toNat ≤ 57) ||
  c.toNat == 46 || c.toNat == 45

/-- ASCII lowercasing of one character, the fragment of JavaScript
`String.prototype.toLowerCase` relevant here: `createAppName` lowercases
only after the first `replace` has already confined the string to
`[A-Za-z0-9.-]`, and the `/i` regex flag of `confirm` only has to
case-fold ASCII pattern letters. -/
def jsToLowerChar (c : Char) : Char :=
  if 65 ≤ c.toNat ∧ c.toNat ≤ 90 then Char.ofNat (c.toNat + 32) else c

/-! ## Generic list helpers (suffix-side `dropWhile`) -/

/-- Remove the longest suffix whose characters all satisfy `p`
(used for the trailing `-+$` of `createAppName` and for the trailing
slashes skipped by `path.basename`). -/
def dropTrailingWhile (p : Char → Bool) (l : List Char) : List Char :=
  (l.reverse.dropWhile p).reverse

/-! ## `createAppName` (lines 295–301 of `bin/express-cli.js`)

```js
function createAppName(pathName) {
  return path
    .basename(pathName)
    .replace(/[^A-Za-z0-9.-]+/g, "-")
    .replace(/^[-_.]+|-+$/g, "")
    .toLowerCase();
}
```
-/

/-- `path.posix.basename(p)`: ignore trailing slashes, then return the
part of the string after the last remaining slash (the whole string when
no slash remains; the empty string when the input is all slashes or
empty). -/
def basenameChars (p : List Char) : List Char :=
  ((dropTrailingWhile slashChar p).reverse.takeWhile (fun c => !slashChar c)).reverse

/-- Helper for the squashing `replace`: `inRun` records whether the
previous character was part of a (already replaced) disallowed run. -/
def squashAux : Bool → List Char → List Char
  | _, [] => []
  | inRun, c :: cs =>
    if allowedChar c then c :: squashAux false cs
    else if inRun then squashAux true cs
    else '-' :: squashAux true cs

/-- `.replace(/[^A-Za-z0-9.-]+/g, "-")`: each maximal run of characters
outside `[A-Za-z0-9.-]` becomes a single `-`. -/
def squashDisallowed (l : List Char) : List Char := squashAux false l

/-- `.replace(/^[-_.]+|-+$/g, "")`: the (maximal) leading run of `[-_.]`
characters and the (maximal) trailing run of `-` characters are removed;
with the `g` flag and the `^`/`$` anchors these are the only matches the
regex can produce. -/
def stripEdges (l : List Char) : List Char :=
  dropTrailingWhile dashChar (l.dropWhile sepChar)

/-- The core of `createAppName` on character lists. -/
def createAppNameChars (p : List Char) : List Char :=
  (stripEdges (squashDisallowed (basenameChars p))).map jsToLowerChar

/-- `createAppName(pathName)` of the source, on `String`. -/
def createAppName (p : String) : String :=
  ⟨createAppNameChars p.data⟩

/-! ### Character-level lemmas -/

theorem toNat_jsToLowerChar (c : Char) :
    (jsToLowerChar c).toNat =
      if 65 ≤ c.toNat ∧ c.toNat ≤ 90 then c.toNat + 32 else c.toNat := by
  unfold jsToLowerChar
  split
  · next h =>
    have hv : (c.toNat + 32).isValidChar := by
      left; omega
    unfold Char.ofNat
    rw [dif_pos hv]
    unfold Char.ofNatAux
    simp [Char.toNat, UInt32.toNat]
  · rfl

theorem jsToLowerChar_eq_self (c : Char) (h : ¬(65 ≤ c.toNat ∧ c.toNat ≤ 90)) :
    jsToLowerChar c = c := by
  unfold jsToLowerChar
  rw [if_neg h]

theorem finalNameChar_jsToLowerChar (c : Char) (h : allowedChar c = true) :
    finalNameChar (jsToLowerChar c) = true := by
  have ht := toNat_jsToLowerChar c
  unfold allowedChar at h
  unfold finalNameChar
  simp only [Bool.or_eq_true, Bool.and_eq_true, decide_eq_true_eq, beq_iff_eq] at h ⊢
  by_cases hu : 65 ≤ c.toNat ∧ c.toNat ≤ 90
  · rw [if_pos hu] at ht; omega
  · rw [if_neg hu] at ht; omega

theorem jsToLowerChar_fix (c : Char) (h : finalNameChar c = true) :
    jsToLowerChar c = c := by
  apply jsToLowerChar_eq_self
  unfold finalNameChar at h
  simp only [Bool.or_eq_true, Bool.and_eq_true, decide_eq_true_eq, beq_iff_eq] at h
  omega

theorem finalNameChar_allowed (c : Char) (h : finalNameChar c = true) :
    allowedChar c = true := by
  unfold finalNameChar at h
  unfold allowedChar
  simp only [Bool.or_eq_true, Bool.and_eq_true, decide_eq_true_eq, beq_iff_eq] at h ⊢
  omega

theorem sepChar_jsToLowerChar (c : Char) (hs : sepChar c = false) :
    sepChar (jsToLowerChar c) = false := by
  have ht := toNat_jsToLowerChar c
  unfold sepChar at hs ⊢
  simp only [Bool.or_eq_false_iff, beq_eq_false_iff_ne, ne_eq] at hs ⊢
  by_cases hu : 65 ≤ c.toNat ∧ c.toNat ≤ 90
  · rw [if_pos hu] at ht; omega
  · rw [if_neg hu] at ht; omega

theorem dashChar_jsToLowerChar (c : Char) (hd : dashChar c = false) :
    dashChar (jsToLowerChar c) = false := by
  have ht := toNat_jsToLowerChar c
  unfold dashChar at hd ⊢
  simp only [beq_eq_false_iff_ne, ne_eq] at hd ⊢
  by_cases hu : 65 ≤ c.toNat ∧ c.toNat ≤ 90
  · rw [if_pos hu] at ht; omega
  · rw [if_neg hu] at ht; omega

theorem not_slash_of_finalNameChar (c : Char) (h : finalNameChar c = true) :
    slashChar c = false := by
  unfold finalNameChar at h
  unfold slashChar
  simp only [Bool.or_eq_true, Bool.and_eq_true, decide_eq_true_eq, beq_iff_eq,
    beq_eq_false_iff_ne, ne_eq] at h ⊢
  omega

/-! ### List-level lemmas about the pipeline -/

theorem mem_squashAux {c : Char} {l : List Char} :
    ∀ {b : Bool}, c ∈ squashAux b l → allowedChar c = true := by
  induction l with
  | nil => intro b h; simp [squashAux] at h
  | cons a as ih =>
    intro b h
    simp only [squashAux] at h
    split at h
    · rcases List.mem_cons.mp h with h | h
      · subst h; assumption
      · exact ih h
    · split at h
      · exact ih h
      · rcases List.mem_cons.mp h with h | h
        · subst h; rfl
        · exact ih h

theorem mem_squashDisallowed {c : Char} {l : List Char}
    (h : c ∈ squashDisallowed l) : allowedChar c = true :=
  mem_squashAux h

theorem squashAux_eq_self {l : List Char}
    (h : ∀ c ∈ l, allowedChar c = true) : ∀ b, squashAux b l = l := by
  induction l with
  | nil => intro b; simp [squashAux]
  | cons c cs ih =>
    intro b
    simp only [squashAux]
    rw [if_pos (h c (by simp))]
    rw [ih (fun d hd => h d (by simp [hd])) false]

theorem squashDisallowed_eq_self {l : List Char}
    (h : ∀ c ∈ l, allowedChar c = true) : squashDisallowed l = l :=
  squashAux_eq_self h false

theorem head?_dropWhile_not {p : Char → Bool} :
    ∀ {l : List Char} {c : Char}, (l.dropWhile p).head? = some c → p c = false := by
  intro l
  induction l with
  | nil => intro c h; simp [List.dropWhile] at h
  | cons a as ih =>
    intro c h
    rw [List.dropWhile_cons] at h
    split at h
    · exact ih h
    · simp_all

theorem mem_dropTrailingWhile {p : Char → Bool} {l : List Char} {c : Char}
    (h : c ∈ dropTrailingWhile p l) : c ∈ l := by
  unfold dropTrailingWhile at h
  have := (List.dropWhile_sublist (l := l.reverse) p).mem (List.mem_reverse.mp h)
  exact List.mem_reverse.mp this

theorem getLast?_dropTrailingWhile_not {p : Char → Bool} {l : List Char} {c : Char}
    (h : (dropTrailingWhile p l).getLast? = some c) : p c = false := by
  unfold dropTrailingWhile at h
  rw [List.getLast?_reverse] at h
  exact head?_dropWhile_not h

theorem head?_dropTrailingWhile {p : Char → Bool} {l : List Char} {c : Char}
    (h : (dropTrailingWhile p l).head? = some c) : l.head? = some c := by
  unfold dropTrailingWhile at h
  have hsplit := List.takeWhile_append_dropWhile (p := p) (l := l.reverse)
  have : l = (l.reverse.dropWhile p).reverse ++ (l.reverse.takeWhile p).reverse := by
    conv_lhs => rw [← List.reverse_reverse l, ← hsplit]
    rw [List.reverse_append]
  rw [this, List.head?_append, h]
  rfl

theorem dropWhile_eq_self_of_head {p : Char → Bool} {l : List Char}
    (h : ∀ c, l.head? = some c → p c = false) : l.dropWhile p = l := by
  cases l with
  | nil => rfl
  | cons a as =>
    rw [List.dropWhile_cons_of_neg]
    simp [h a rfl]

theorem dropTrailingWhile_eq_self_of_getLast {p : Char → Bool} {l : List Char}
    (h : ∀ c, l.getLast? = some c → p c = false) : dropTrailingWhile p l = l := by
  unfold dropTrailingWhile
  rw [dropWhile_eq_self_of_head, List.reverse_reverse]
  intro c hc
  rw [List.head?_reverse] at hc
  exact h c hc

theorem basenameChars_eq_self {l : List Char}
    (h : ∀ c ∈ l, slashChar c = false) : basenameChars l = l := by
  unfold basenameChars
  rw [dropTrailingWhile_eq_self_of_getLast (fun c hc => h c (List.mem_of_mem_getLast? hc))]
  rw [List.takeWhile_eq_self_iff.mpr (by
    intro c hc
    simp [h c (List.mem_reverse.mp hc)])]
  exact List.reverse_reverse l

theorem mem_stripEdges {l : List Char} {c : Char} (h : c ∈ stripEdges l) : c ∈ l := by
  unfold stripEdges at h
  exact (List.dropWhile_sublist _).mem (mem_dropTrailingWhile h)

theorem mem_createAppNameChars {p : List Char} {c : Char}
    (h : c ∈ createAppNameChars p) : finalNameChar c = true := by
  unfold createAppNameChars at h
  rcases List.mem_map.mp h with ⟨d, hd, rfl⟩
  exact finalNameChar_jsToLowerChar d (mem_squashDisallowed (mem_stripEdges hd))

theorem head?_createAppNameChars {p : List Char} {c : Char}
    (h : (createAppNameChars p).head? = some c) : sepChar c = false := by
  unfold createAppNameChars at h
  rw [List.head?_map] at h
  cases hs : (stripEdges (squashDisallowed (basenameChars p))).head? with
  | none => rw [hs] at h; simp at h
  | some d =>
    rw [hs] at h
    simp only [Option.map_some'] at h
    have hd : sepChar d = false := by
      unfold stripEdges at hs
      exact head?_dropWhile_not (head?_dropTrailingWhile hs)
    have := sepChar_jsToLowerChar d hd
    simp only [Option.some.injEq] at h
    rw [← h]
    exact this

theorem getLast?_createAppNameChars {p : List Char} {c : Char}
    (h : (createAppNameChars p).getLast? = some c) : dashChar c = false := by
  unfold createAppNameChars at h
  rw [List.getLast?_map] at h
  cases hs : (stripEdges (squashDisallowed (basenameChars p))).getLast? with
  | none => rw [hs] at h; simp at h
  | some d =>
    rw [hs] at h
    simp only [Option.map_some'] at h
    have hd : dashChar d = false := by
      unfold stripEdges at hs
      exact getLast?_dropTrailingWhile_not hs
    have := dashChar_jsToLowerChar d hd
    simp only [Option.some.injEq] at h
    rw [← h]
    exact this

/-- C5: for every destination path string, the app name produced by
`createAppName` contains only characters from `[a-z0-9.-]`, does not
begin with `-`, `_` or `.`, and does not end with `-`. -/
theorem createAppName_charset (p : String) :
    (createAppName p).data.all finalNameChar = true ∧
    (createAppName p).data.head?.all (fun c => !sepChar c) = true ∧
    (createAppName p).data.getLast?.all (fun c => !dashChar c) = true := by
  refine ⟨?_, ?_, ?_⟩
  · rw [List.all_eq_true]
    intro c hc
    exact mem_createAppNameChars hc
  · cases hh : (createAppName p).data.head? with
    | none => rfl
    | some c =>
      show (!sepChar c) = true
      rw [head?_createAppNameChars hh]
      rfl
  · cases hh : (createAppName p).data.getLast? with
    | none => rfl
    | some c =>
      show (!dashChar c) = true
      rw [getLast?_createAppNameChars hh]
      rfl

theorem createAppNameChars_fixpoint {s : List Char}
    (hall : ∀ c ∈ s, finalNameChar c = true)
    (hhead : ∀ c, s.head? = some c → sepChar c = false)
    (hlast : ∀ c, s.getLast? = some c → dashChar c = false) :
    createAppNameChars s = s := by
  unfold createAppNameChars
  rw [basenameChars_eq_self (fun c hc => not_slash_of_finalNameChar c (hall c hc))]
  rw [squashDisallowed_eq_self (fun c hc => finalNameChar_allowed c (hall c hc))]
  unfold stripEdges
  rw [dropWhile_eq_self_of_head hhead]
  rw [dropTrailingWhile_eq_self_of_getLast hlast]
  rw [List.map_congr_left (fun c hc => jsToLowerChar_fix c (hall c hc))]
  exact List.map_id s

/-- C6: `createAppName` is idempotent: applying it to its own output
returns the same string. -/
theorem createAppName_idempotent (p : String) :
    createAppName (createAppName p) = createAppName p := by
  show (⟨createAppNameChars (createAppNameChars p.data)⟩ : String) = _
  rw [createAppNameChars_fixpoint
    (fun c hc => mem_createAppNameChars hc)
    (fun c hc => head?_createAppNameChars hc)
    (fun c hc => getLast?_createAppNameChars hc)]
  rfl

/-! ## POSIX path handling used by `main` (lines 378–383) and the
filesystem targets of `createApplication`

`main` computes `createAppName(path.resolve(destinationPath))`, and the
file/directory targets go through `path.join`.  Both Node functions split
on `/`, drop empty and `.` components, resolve `..`, and re-join. -/

/-- Split on `/` (like Node's internal component scan; a trailing or
leading separator yields an empty component). -/
def splitSlash : List Char → List (List Char)
  | [] => [[]]
  | c :: rest =>
    if slashChar c then [] :: splitSlash rest
    else
      match splitSlash rest with
      | [] => [[c]]
      | g :: gs => (c :: g) :: gs

/-- Join components with `/` (inverse of `splitSlash`). -/
def intercalateSlash : List (List Char) → List Char
  | [] => []
  | [c] => c
  | c :: rest => c ++ '/' :: intercalateSlash rest

/-- One step of Node's `normalizeString` over a reversed accumulator of
kept components: empty and `.` components are dropped, `..` pops the last
kept component (or, above the root of a relative path when
`allowAbove`, accumulates). -/
def stepComp (allowAbove : Bool) (racc : List (List Char)) (comp : List Char) : List (List Char) :=
  if comp = [] ∨ comp = ['.'] then racc
  else if comp = ['.', '.'] then
    match racc with
    | [] => if allowAbove then [['.', '.']] else []
    | top :: rest =>
      if top = ['.', '.'] then (if allowAbove then ['.', '.'] :: racc else racc)
      else rest
  else comp :: racc

/-- `normalizeString`: the kept components, in order. -/
def normComps (allowAbove : Bool) (comps : List (List Char)) : List (List Char) :=
  (comps.foldl (stepComp allowAbove) []).reverse

/-- `path.posix.normalize`. -/
def posixNormalize (p : List Char) : List Char :=
  if p = [] then ['.']
  else
    let isAbs := p.head? == some '/'
    let trailing := p.getLast? == some '/'
    let s := intercalateSlash (normComps (!isAbs) (splitSlash p))
    if s = [] then
      if isAbs then ['/'] else if trailing then ['.', '/'] else ['.']
    else
      (if isAbs then '/' :: s else s) ++ (if trailing then ['/'] else [])

/-- `path.posix.join(a, b)`: drop empty arguments, join the rest with
`/`, normalize. -/
def joinChars (a b : List Char) : List Char :=
  if a = [] ∧ b = [] then ['.']
  else if a = [] then posixNormalize b
  else if b = [] then posixNormalize a
  else posixNormalize (a ++ '/' :: b)

/-- Final rendering step of `path.posix.resolve`: the kept components
joined by `/` behind the root. -/
def resolveRender (s : List Char) : List Char :=
  if s = [] then ['/'] else '/' :: s

/-- `path.posix.resolve(p)` against an absolute working directory `cwd`
(Node prepends `process.cwd()`, which is always absolute, when `p` is
not). -/
def resolveChars (cwd p : List Char) : List Char :=
  resolveRender (intercalateSlash (normComps false (splitSlash
    (if p.head? == some '/' then p else cwd ++ '/' :: p))))

/-- `path.join` on `String`s (two-argument form; the three-argument calls
of the source join already-clean relative parts and agree with nesting). -/
def joinPathS (a b : String) : String := ⟨joinChars a.data b.data⟩

/-- `path.resolve(destinationPath)` on `String`s. -/
def resolvePathS (cwd p : String) : String := ⟨resolveChars cwd.data p.data⟩

/-- JavaScript `a || b` for strings: the empty string is the only falsy
string. -/
def jsOrStr (a b : String) : String := if a = "" then b else a

/-- Line 383 of the source:
`var appName = createAppName(path.resolve(destinationPath)) || "hello-world"`. -/
def appNameOf (cwd dest : String) : String :=
  jsOrStr (createAppName (resolvePathS cwd dest)) "hello-world"

/-- A component that survives normalization unchanged: nonempty, not `.`
and not `..`. -/
def goodComp (c : List Char) : Bool :=
  !c.isEmpty && c ≠ ['.'] && c ≠ ['.', '.']

/-- An already-normalized absolute path other than the bare root: it
starts with `/`, has at least one component, and every component is
nonempty and neither `.` nor `..` (this is the shape of
`process.cwd()`). -/
def isNormalAbsPath (s : String) : Bool :=
  match splitSlash s.data with
  | [] :: rest => !rest.isEmpty && rest.all goodComp
  | _ => false

/-! ### Path lemmas -/

theorem splitSlash_cons (c : Char) (rest : List Char) :
    splitSlash (c :: rest) =
      if slashChar c then [] :: splitSlash rest
      else match splitSlash rest with
        | [] => [[c]]
        | g :: gs => (c :: g) :: gs := rfl

theorem intercalateSlash_cons2 (c g : List Char) (gs : List (List Char)) :
    intercalateSlash (c :: g :: gs) = c ++ '/' :: intercalateSlash (g :: gs) := rfl

theorem splitSlash_ne_nil (l : List Char) : splitSlash l ≠ [] := by
  cases l with
  | nil => simp [splitSlash]
  | cons c rest =>
    rw [splitSlash_cons]
    split
    · simp
    · split <;> simp

theorem char_eq_of_toNat_eq {c d : Char} (h : c.toNat = d.toNat) : c = d :=
  Char.eq_of_val_eq (UInt32.eq_of_toBitVec_eq (by
    simp only [Char.toNat, UInt32.toNat] at h
    exact BitVec.eq_of_toNat_eq h))

theorem eq_slash_of_slashChar {c : Char} (hc : slashChar c = true) : c = '/' := by
  unfold slashChar at hc
  simp only [beq_iff_eq] at hc
  exact char_eq_of_toNat_eq hc

theorem splitSlash_append (a b : List Char) :
    splitSlash (a ++ '/' :: b) = splitSlash a ++ splitSlash b := by
  induction a with
  | nil =>
    simp only [List.nil_append]
    rw [splitSlash_cons, if_pos (by decide)]
    rfl
  | cons c cs ih =>
    by_cases hc : slashChar c = true
    · simp only [List.cons_append]
      rw [splitSlash_cons, if_pos hc, ih, splitSlash_cons, if_pos hc]
      rfl
    · simp only [List.cons_append]
      rw [splitSlash_cons, if_neg (by simp [hc]), ih]
      rw [splitSlash_cons, if_neg (by simp [hc])]
      cases hs : splitSlash cs with
      | nil => exact absurd hs (splitSlash_ne_nil cs)
      | cons g gs => simp

theorem intercalateSlash_splitSlash (l : List Char) :
    intercalateSlash (splitSlash l) = l := by
  induction l with
  | nil => rfl
  | cons c cs ih =>
    by_cases hc : slashChar c = true
    · rw [splitSlash_cons, if_pos hc]
      cases hs : splitSlash cs with
      | nil => exact absurd hs (splitSlash_ne_nil cs)
      | cons g gs =>
        rw [intercalateSlash_cons2, eq_slash_of_slashChar hc]
        rw [← hs, ih]
        rfl
    · rw [splitSlash_cons, if_neg (by simp [hc])]
      cases hs : splitSlash cs with
      | nil => exact absurd hs (splitSlash_ne_nil cs)
      | cons g gs =>
        cases gs with
        | nil =>
          show intercalateSlash [c :: g] = c :: cs
          rw [hs] at ih
          show c :: g = c :: cs
          rw [show intercalateSlash [g] = g from rfl] at ih
          rw [ih]
        | cons g2 gs2 =>
          rw [intercalateSlash_cons2]
          rw [hs] at ih
          rw [intercalateSlash_cons2] at ih
          rw [show (c :: g) ++ '/' :: intercalateSlash (g2 :: gs2)
                = c :: (g ++ '/' :: intercalateSlash (g2 :: gs2)) from rfl]
          rw [ih]

theorem foldl_stepComp_good (ab : Bool) :
    ∀ (comps : List (List Char)) (racc : List (List Char)),
      comps.all goodComp = true →
      comps.foldl (stepComp ab) racc = comps.reverse ++ racc := by
  intro comps
  induction comps with
  | nil => intro racc _; rfl
  | cons c cs ih =>
    intro racc h
    simp only [List.all_cons, Bool.and_eq_true] at h
    obtain ⟨hc, hcs⟩ := h
    rw [List.foldl_cons]
    have hstep : stepComp ab racc c = c :: racc := by
      unfold goodComp at hc
      simp only [Bool.and_eq_true, bne_iff_ne, ne_eq, decide_eq_true_eq,
        Bool.not_eq_true', List.isEmpty_eq_false] at hc
      unfold stepComp
      rw [if_neg (by
        push_neg
        constructor
        · exact hc.1.1
        · exact hc.1.2)]
      rw [if_neg hc.2]
    rw [hstep, ih (c :: racc) hcs]
    simp

theorem resolve_dot_eq_self {cwd : String} (h : isNormalAbsPath cwd = true) :
    resolvePathS cwd "." = cwd := by
  unfold isNormalAbsPath at h
  cases hs : splitSlash cwd.data with
  | nil => exact absurd hs (splitSlash_ne_nil cwd.data)
  | cons g gs =>
    rw [hs] at h
    cases g with
    | cons _ _ => simp at h
    | nil =>
      simp only [Bool.and_eq_true, Bool.not_eq_true', List.isEmpty_eq_false] at h
      obtain ⟨hne, hall⟩ := h
      -- `"."` does not start with `/`, so resolve prepends `cwd ++ "/"`.
      unfold resolvePathS resolveChars
      rw [if_neg (by decide)]
      rw [show (cwd.data ++ '/' :: ("." : String).data) = cwd.data ++ '/' :: ['.'] from rfl]
      unfold normComps
      rw [splitSlash_append, hs]
      rw [show splitSlash ['.'] = [['.']] from rfl]
      rw [show (([] :: gs) ++ [['.']]) = [] :: (gs ++ [['.']]) from rfl]
      rw [List.foldl_cons]
      rw [show stepComp false [] [] = [] from rfl]
      rw [List.foldl_append, foldl_stepComp_good false gs [] hall]
      rw [List.foldl_cons]
      rw [show stepComp false (gs.reverse ++ []) ['.'] = gs.reverse ++ [] from by
        unfold stepComp
        rw [if_pos (by simp)]]
      rw [List.foldl_nil]
      simp only [List.append_nil, List.reverse_reverse]
      have hrender : cwd.data = '/' :: intercalateSlash gs := by
        have hi := intercalateSlash_splitSlash cwd.data
        rw [hs] at hi
        cases gs with
        | nil => exact absurd rfl hne
        | cons g2 gs2 =>
          rw [intercalateSlash_cons2] at hi
          simpa using hi.symm
      have hne2 : intercalateSlash gs ≠ [] := by
        intro hnil
        cases gs with
        | nil => exact hne rfl
        | cons g2 gs2 =>
          cases gs2 with
          | nil =>
            simp only [List.all_cons, List.all_nil, Bool.and_true] at hall
            rw [show intercalateSlash [g2] = g2 from rfl] at hnil
            unfold goodComp at hall
            rw [hnil] at hall
            simp at hall
          | cons g3 gs3 =>
            rw [intercalateSlash_cons2] at hnil
            simp at hnil
      unfold resolveRender
      rw [if_neg hne2]
      cases cwd with
      | mk d =>
        show String.mk ('/' :: intercalateSlash gs) = String.mk d
        rw [show d = '/' :: intercalateSlash gs from hrender]

/-- C10: the app name is derived from the fully resolved destination
path: for destination `.` it is the normalized name of the (already
normalized, absolute) current working directory, and in general the
`hello-world` fallback is used exactly when normalizing the resolved
path yields the empty string. -/
theorem appName_from_resolvedPath (cwd dest : String)
    (h : isNormalAbsPath cwd = true) :
    appNameOf cwd "." =
      (if createAppName cwd = "" then "hello-world" else createAppName cwd) ∧
    appNameOf cwd dest =
      (if createAppName (resolvePathS cwd dest) = "" then "hello-world"
       else createAppName (resolvePathS cwd dest)) := by
  constructor
  · unfold appNameOf jsOrStr
    rw [resolve_dot_eq_self h]
  · rfl

/-- Witness for C10 at a concrete working directory and destination. -/
theorem appName_from_resolvedPath_witness :
    isNormalAbsPath "/home/alice/Demo App" = true ∧
    (appNameOf "/home/alice/Demo App" "." =
      (if createAppName "/home/alice/Demo App" = "" then "hello-world"
       else createAppName "/home/alice/Demo App") ∧
     appNameOf "/home/alice/Demo App" "web" =
      (if createAppName (resolvePathS "/home/alice/Demo App" "web") = "" then "hello-world"
       else createAppName (resolvePathS "/home/alice/Demo App" "web"))) :=
  ⟨by decide, appName_from_resolvedPath "/home/alice/Demo App" "web" (by decide)⟩

/-! ## The interactive confirmation classifier (lines 93–103)

```js
rl.question(msg, function (input) {
  rl.close();
  callback(/^y|yes|ok|true$/i.test(input));
});
```

By regex precedence the pattern is `(^y)|(yes)|(ok)|(true$)`: the test is
true iff the input starts with `y`, or contains `yes`, or contains `ok`,
or ends with `true`, all case-insensitively.  `/i` on these ASCII pattern
letters is equivalent to matching the lowercased input against the
lowercase literals. -/

/-- Executable prefix test on character lists. -/
def isPrefixL : List Char → List Char → Bool
  | [], _ => true
  | _ :: _, [] => false
  | a :: as, b :: bs => a == b && isPrefixL as bs

/-- Executable substring (contiguous) test on character lists. -/
def isInfixL (pat : List Char) : List Char → Bool
  | [] => pat.isEmpty
  | c :: rest => isPrefixL pat (c :: rest) || isInfixL pat rest

/-- Executable suffix test on character lists. -/
def isSuffixL (pat l : List Char) : Bool := isPrefixL pat.reverse l.reverse

/-- `/^y|yes|ok|true$/i.test(input)` — the predicate `confirm` passes to
its callback. -/
def confirmAffirmative (input : List Char) : Bool :=
  (input.map jsToLowerChar).head? == some 'y' ||
  isInfixL ['y', 'e', 's'] (input.map jsToLowerChar) ||
  isInfixL ['o', 'k'] (input.map jsToLowerChar) ||
  isSuffixL ['t', 'r', 'u', 'e'] (input.map jsToLowerChar)

theorem isPrefixL_iff : ∀ (pat l : List Char),
    isPrefixL pat l = true ↔ ∃ t, l = pat ++ t := by
  intro pat
  induction pat with
  | nil => intro l; simp [isPrefixL]
  | cons a as ih =>
    intro l
    cases l with
    | nil =>
      simp [isPrefixL]
    | cons b bs =>
      rw [show isPrefixL (a :: as) (b :: bs) = (a == b && isPrefixL as bs) from rfl]
      simp only [Bool.and_eq_true, beq_iff_eq, ih bs]
      constructor
      · rintro ⟨rfl, t, rfl⟩
        exact ⟨t, rfl⟩
      · rintro ⟨t, ht⟩
        simp only [List.cons_append, List.cons.injEq] at ht
        exact ⟨ht.1.symm, t, ht.2⟩

theorem isInfixL_iff (pat : List Char) : ∀ (l : List Char),
    isInfixL pat l = true ↔ ∃ a b, l = a ++ pat ++ b := by
  intro l
  induction l with
  | nil =>
    rw [show isInfixL pat [] = pat.isEmpty from rfl]
    cases pat <;> simp
  | cons c rest ih =>
    rw [show isInfixL pat (c :: rest) = (isPrefixL pat (c :: rest) || isInfixL pat rest) from rfl]
    simp only [Bool.or_eq_true, isPrefixL_iff, ih]
    constructor
    · rintro (⟨t, ht⟩ | ⟨a, b, hab⟩)
      · exact ⟨[], t, by simp [ht]⟩
      · exact ⟨c :: a, b, by simp [hab]⟩
    · rintro ⟨a, b, hab⟩
      cases a with
      | nil =>
        left
        exact ⟨b, by simpa using hab⟩
      | cons a0 as =>
        right
        simp only [List.cons_append, List.cons.injEq] at hab
        exact ⟨as, b, hab.2⟩

theorem isSuffixL_iff (pat l : List Char) :
    isSuffixL pat l = true ↔ ∃ a, l = a ++ pat := by
  unfold isSuffixL
  rw [isPrefixL_iff]
  constructor
  · rintro ⟨t, ht⟩
    refine ⟨t.reverse, ?_⟩
    have := congrArg List.reverse ht
    simpa using this
  · rintro ⟨a, rfl⟩
    exact ⟨a.reverse, by simp⟩

/-- C2 counterexample: the input `yikes` is classified affirmative,
although the whole line is (case-insensitively) none of `y`, `yes`,
`ok`, `true`. -/
theorem confirm_yikes_counterexample :
    confirmAffirmative "yikes".data = true ∧
    "yikes".data.map jsToLowerChar ≠ "y".data ∧
    "yikes".data.map jsToLowerChar ≠ "yes".data ∧
    "yikes".data.map jsToLowerChar ≠ "ok".data ∧
    "yikes".data.map jsToLowerChar ≠ "true".data := by
  decide

/-- C2 (amended): the confirmation callback receives `true` iff the
lowercased input line starts with `y`, or contains `yes`, or contains
`ok`, or ends with `true` — the regex `/^y|yes|ok|true$/i` anchors only
the first and last alternatives. -/
theorem confirm_regex_semantics (input : List Char) :
    confirmAffirmative input = true ↔
      ((∃ rest, input.map jsToLowerChar = 'y' :: rest) ∨
       (∃ a b, input.map jsToLowerChar = a ++ ['y', 'e', 's'] ++ b) ∨
       (∃ a b, input.map jsToLowerChar = a ++ ['o', 'k'] ++ b) ∨
       (∃ a, input.map jsToLowerChar = a ++ ['t', 'r', 'u', 'e'])) := by
  unfold confirmAffirmative
  simp only [Bool.or_eq_true, isInfixL_iff, isSuffixL_iff, beq_iff_eq]
  constructor
  · rintro (((hh | hi) | hi) | hs)
    · cases hm : input.map jsToLowerChar with
      | nil => rw [hm] at hh; simp at hh
      | cons c cs =>
        rw [hm] at hh
        simp only [List.head?_cons, Option.some.injEq] at hh
        exact Or.inl ⟨cs, by rw [hh]⟩
    · exact Or.inr (Or.inl hi)
    · exact Or.inr (Or.inr (Or.inl hi))
    · exact Or.inr (Or.inr (Or.inr hs))
  · rintro (⟨rest, hr⟩ | hi | hi | hs)
    · exact Or.inl (Or.inl (Or.inl (by rw [hr]; rfl)))
    · exact Or.inl (Or.inl (Or.inr hi))
    · exact Or.inl (Or.inr hi)
    · exact Or.inr hs

/-! ## `copyTemplateMulti` (lines 117–123)

```js
fs.readdirSync(path.join(TEMPLATE_DIR, fromDir))
  .filter(minimatch.filter(nameGlob, { matchBase: true }))
  .forEach(...)
```

The two call sites use the globs `*.css` and `*.js`.  For such a
`*.ext` pattern, minimatch (default options, `dot` unset) matches a
directory entry iff it does not start with `.` and ends with `.ext`,
case-sensitively.  The filtered names are processed in the order the
directory listing returns them — the code performs no sorting. -/

/-- minimatch on a `*.ext` pattern (default `dot:false`, case-sensitive):
the name must not start with `.` and must end with `.ext`. -/
def matchStarDotGlob (ext name : List Char) : Bool :=
  !(name.head? == some '.') && isSuffixL ('.' :: ext) name

/-- The file names `copyTemplateMulti` copies, in order, given the
directory listing and the `*.ext` glob. -/
def copyTemplateMultiNames (listing : List String) (ext : String) : List String :=
  listing.filter (fun n => matchStarDotGlob ext.data n.data)

/-! ## The package manifest built by `createApplication` (lines 136–166,
182–197, 221–227, 257–262)

JavaScript object literals keep string properties in insertion order and
re-assignment keeps the original position; `JSON.stringify` emits the
properties in that order.  Objects whose property order is observable are
modelled as association lists in property order, with the JS assignment
semantics `objSet`. -/

/-- The five CLI flags (`--git`, `--pg`, `--dev`, `--test`,
`--force`). -/
structure Flags where
  git : Bool
  pg : Bool
  dev : Bool
  test : Bool
  force : Bool
deriving DecidableEq

/-- A JS object with string values, in property (insertion) order. -/
def Obj := List (String × String)

/-- `obj[k] = v`: overwrite in place if the key exists, else append. -/
def objSet (obj : List (String × String)) (k v : String) : List (String × String) :=
  if obj.any (fun p => p.1 == k) then
    obj.map (fun p => if p.1 == k then (k, v) else p)
  else obj ++ [(k, v)]

/-- `pkg.scripts`, in insertion order: `start` at creation, then (lines
151–159) `db:createusers` when `--pg` (the dotenv-preloading variant when
`--dev` is also set), then (line 165) `dev` when `--dev`, then (line 223)
`test` when `--test`. -/
def buildScripts (f : Flags) : List (String × String) :=
  let s0 := [("start", "node ./bin/www.js")]
  let s1 :=
    if f.pg then
      if f.dev then
        objSet s0 "db:createusers" "node -r dotenv/config ./db/scripts/users/createTable.js"
      else objSet s0 "db:createusers" "node ./db/scripts/users/createTable.js"
    else s0
  let s2 := if f.dev then objSet s1 "dev" "nodemon -r dotenv/config ./bin/www.js" else s1
  if f.test then
    objSet s2 "test" "node --experimental-vm-modules node_modules/jest/bin/jest.js"
  else s2

/-- `pkg.dependencies` in insertion order: `debug`, `express` at creation
(lines 144–147), `pg` when `--pg` (line 152), then the fixed middleware
set `morgan`, `cors`, `cookie-parser` (lines 184, 188, 197). -/
def buildDepsInsertion (f : Flags) : List (String × String) :=
  let d0 := [("debug", "~2.6.9"), ("express", "~4.16.1")]
  let d1 := if f.pg then objSet d0 "pg" "^8.7.1" else d0
  let d2 := objSet d1 "morgan" "~1.9.1"
  let d3 := objSet d2 "cors" "^2.8.5"
  objSet d3 "cookie-parser" "~1.4.4"

/-- `pkg.devDependencies` in insertion order: `dotenv` when `--pg --dev`
(line 154), `dotenv` (re-set) and `nodemon` when `--dev` (lines 163–164),
`jest` and `supertest` when `--test` (lines 225–226). -/
def buildDevDeps (f : Flags) : List (String × String) :=
  let v0 : List (String × String) := []
  let v1 := if f.pg && f.dev then objSet v0 "dotenv" "^10.0.0" else v0
  let v2 :=
    if f.dev then objSet (objSet v1 "dotenv" "^10.0.0") "nodemon" "^2.0.15" else v1
  if f.test then objSet (objSet v2 "jest" "^27.4.5") "supertest" "^6.1.6" else v2

/-- Strict lexicographic comparison of strings by code unit, the default
`Array.prototype.sort` comparison used by the `sorted-object` package
(all keys here are ASCII, so code units and code points agree). -/
def charsLt : List Char → List Char → Bool
  | [], [] => false
  | [], _ :: _ => true
  | _ :: _, [] => false
  | a :: as, b :: bs =>
    if a.toNat < b.toNat then true
    else if a.toNat == b.toNat then charsLt as bs
    else false

/-- `a` sorts no later than `b`. -/
def keyLe (a b : String) : Bool := !charsLt b.data a.data

/-- Insert an entry into a key-sorted association list. -/
def insertByKey (p : String × String) : List (String × String) → List (String × String)
  | [] => [p]
  | q :: qs => if keyLe p.1 q.1 then p :: q :: qs else q :: insertByKey p qs

/-- `sortedObject(obj)` (line 258): the same entries with the keys in
sorted order (the package rebuilds the object over
`Object.keys(obj).sort()`; on duplicate-free keys that is insertion
sort). -/
def sortObj : List (String × String) → List (String × String)
  | [] => []
  | p :: ps => insertByKey p (sortObj ps)

/-- `pkg.dependencies` as serialized: line 258 applies `sortedObject`
before `JSON.stringify`. -/
def buildDeps (f : Flags) : List (String × String) := sortObj (buildDepsInsertion f)

/-- The key order in which `JSON.stringify` emits `pkg.dependencies`. -/
def serializedDepKeys (f : Flags) : List String := (buildDeps f).map Prod.fst

/-- The key order in which `JSON.stringify` emits `pkg.devDependencies`
(no sorting is applied to this object anywhere). -/
def serializedDevDepKeys (f : Flags) : List String := (buildDevDeps f).map Prod.fst

/-- The manifest record written to `package.json` (lines 136–149 plus the
flag-dependent amendments; `privateFlag`/`moduleType` stand for the JS
`private`/`type` fields, whose names are reserved in Lean). -/
structure Pkg where
  name : String
  version : String
  privateFlag : Bool
  moduleType : String
  scripts : List (String × String)
  dependencies : List (String × String)
  devDependencies : List (String × String)

/-- The manifest as serialized on line 262. -/
def buildPkg (f : Flags) (name : String) : Pkg :=
  { name := name
    version := "0.0.0"
    privateFlag := true
    moduleType := "module"
    scripts := buildScripts f
    dependencies := buildDeps f
    devDependencies := buildDevDeps f }

/-- `obj[k]` as an optional lookup. -/
def lookupKey (obj : List (String × String)) (k : String) : Option String :=
  (obj.find? (fun p => p.1 == k)).map Prod.snd

/-- Is a key list in sorted order? -/
def keysSortedB : List String → Bool
  | [] => true
  | [_] => true
  | a :: b :: r => keyLe a b && keysSortedB (b :: r)

/-! ## The filesystem operations issued by `createApplication`
(lines 199–264) and the pre-check flow of `main` (lines 378–401) -/

/-- `MODE_0666`, the default mode of `write`. -/
def MODE_0666 : Nat := 438

/-- `MODE_0755`, the mode of `bin/www.js`. -/
def MODE_0755 : Nat := 493

/-- One filesystem operation issued against the destination tree:
`mkdirp.sync`, a file write (`write`, also used by `copyTemplate`), or a
bulk template copy (`copyTemplateMulti`, whose expansion depends on the
bundled template directory listing). -/
inductive FsOp
  | mkdirOp (path : String)
  | writeOp (path : String) (mode : Nat)
  | copyMultiOp (fromDir : String) (toDir : String) (nameGlob : String)
deriving DecidableEq

/-- The destination-tree operations of `createApplication`, in source
order (lines 199–264).  Writes of rendered templates and of
`package.json` appear as `writeOp` (content is tracked separately by
`buildPkg`). -/
def createOps (f : Flags) (dir : String) : List FsOp :=
  (if dir ≠ "." then [FsOp.mkdirOp (joinPathS dir ".")] else []) ++
  [FsOp.mkdirOp (joinPathS dir "public"),
   FsOp.mkdirOp (joinPathS dir "public/js"),
   FsOp.mkdirOp (joinPathS dir "public/images"),
   FsOp.mkdirOp (joinPathS dir "public/css")] ++
  (if f.pg then
    [FsOp.mkdirOp (joinPathS dir "models"),
     FsOp.mkdirOp (joinPathS dir "db"),
     FsOp.mkdirOp (joinPathS dir "db/scripts"),
     FsOp.mkdirOp (joinPathS dir "db/scripts/users"),
     FsOp.writeOp (joinPathS dir "models/users.js") MODE_0666,
     FsOp.writeOp (joinPathS dir "db/connection.js") MODE_0666,
     FsOp.writeOp (joinPathS dir "db/scripts/users/createTable.js") MODE_0666]
   else []) ++
  (if f.test then [FsOp.writeOp (joinPathS dir "app.test.js") MODE_0666] else []) ++
  [FsOp.copyMultiOp "css" (dir ++ "/public/css") "*.css",
   FsOp.mkdirOp (joinPathS dir "routes"),
   FsOp.copyMultiOp "js/routes" (dir ++ "/routes") "*.js",
   FsOp.writeOp (joinPathS dir "public/index.html") MODE_0666] ++
  (if f.git then [FsOp.writeOp (joinPathS dir ".gitignore") MODE_0666] else []) ++
  [FsOp.writeOp (joinPathS dir "dirname.js") MODE_0666,
   FsOp.writeOp (joinPathS dir "app.js") MODE_0666,
   FsOp.writeOp (joinPathS dir "package.json") MODE_0666,
   FsOp.mkdirOp (joinPathS dir "bin"),
   FsOp.writeOp (joinPathS dir "bin/www.js") MODE_0755]

/-- The outcome of `fs.readdir(dir, ...)` as `emptyDirectory` sees it. -/
inductive ReaddirResult
  | enoent
  | otherError
  | ok (entries : List String)

/-- `emptyDirectory` (lines 310–315): `ENOENT` counts as empty, any other
error is re-thrown (`none`), otherwise the listing must be empty. -/
def emptyDirectoryRes : ReaddirResult → Option Bool
  | .enoent => some true
  | .otherError => none
  | .ok es => some es.isEmpty

/-- What one run of `main` did: whether the interactive prompt was shown,
which destination-tree operations were issued, and the exit code. -/
structure RunOutcome where
  prompted : Bool
  fsOps : List FsOp
  exitCode : Nat
deriving DecidableEq

/-- The generation flow of `main` (lines 386–400): proceed silently when
the destination is empty or `--force` is set; otherwise prompt and
proceed only on an affirmative answer, else print `aborting` and
`exit(1)` with no filesystem operation issued.  `none` models the
re-thrown readdir error. -/
def mainRun (f : Flags) (dir : String) (rd : ReaddirResult) (answer : String) :
    Option RunOutcome :=
  match emptyDirectoryRes rd with
  | none => none
  | some empty =>
    if empty || f.force then some ⟨false, createOps f dir, 0⟩
    else if confirmAffirmative answer.data then some ⟨true, createOps f dir, 0⟩
    else some ⟨true, [], 1⟩

/-! ## Claim theorems on the manifest, the glob filter and the main flow -/

/-- C1 counterexample: with `--dev --test`, `JSON.stringify` emits the
`devDependencies` keys in insertion order `dotenv, nodemon, jest,
supertest`, which is not sorted (sorted would be `dotenv, jest, nodemon,
supertest`) — only `dependencies` passes through `sortedObject`. -/
theorem devDeps_unsorted_counterexample :
    serializedDevDepKeys ⟨false, false, true, true, false⟩ =
      ["dotenv", "nodemon", "jest", "supertest"] ∧
    keysSortedB (serializedDevDepKeys ⟨false, false, true, true, false⟩) = false ∧
    keysSortedB ["dotenv", "jest", "nodemon", "supertest"] = true := by
  decide

/-- C1 (amended): for every flag combination the serialized
`dependencies` keys are sorted (line 258 applies `sortedObject`), while
the serialized `devDependencies` keys appear in flag-processing
insertion order — `dotenv, nodemon` when `--dev`, then `jest, supertest`
when `--test` — which is unsorted when both `--dev` and `--test` are
set. -/
theorem manifest_key_order (f : Flags) :
    keysSortedB (serializedDepKeys f) = true ∧
    serializedDevDepKeys f =
      (if f.dev then ["dotenv", "nodemon"] else []) ++
      (if f.test then ["jest", "supertest"] else []) := by
  obtain ⟨g, p, d, t, fo⟩ := f
  cases g <;> cases p <;> cases d <;> cases t <;> cases fo <;> decide

/-- C3 counterexample: with no flags the dependencies keys are not just
`debug` and `express`: the fixed middleware set is always added, so
`morgan` (with `cors` and `cookie-parser`) is among the keys. -/
theorem default_deps_counterexample :
    serializedDepKeys ⟨false, false, false, false, false⟩ ≠ ["debug", "express"] ∧
    "morgan" ∈ serializedDepKeys ⟨false, false, false, false, false⟩ := by
  decide

/-- C3 (amended): with no flags the generated `package.json` has exactly
`cookie-parser, cors, debug, express, morgan` as its dependencies keys —
the base `debug`/`express` pair plus the fixed middleware set — in
alphabetical order, and no `pg` entry. -/
theorem default_deps_exact :
    serializedDepKeys ⟨false, false, false, false, false⟩ =
      ["cookie-parser", "cors", "debug", "express", "morgan"] ∧
    "pg" ∉ serializedDepKeys ⟨false, false, false, false, false⟩ ∧
    keysSortedB (serializedDepKeys ⟨false, false, false, false, false⟩) = true := by
  decide

/-- C4: when the destination listing is non-empty and `--force` is not
set, `main` prompts; on a negative answer it exits with code 1 having
issued no filesystem operation. -/
theorem decline_aborts_without_writes (f : Flags) (dir : String)
    (entries : List String) (answer : String)
    (hne : entries ≠ []) (hforce : f.force = false)
    (hans : confirmAffirmative answer.data = false) :
    mainRun f dir (.ok entries) answer = some ⟨true, [], 1⟩ := by
  simp [mainRun, emptyDirectoryRes, List.isEmpty_eq_false.mpr hne, hforce, hans]

/-- Witness for C4: a populated directory, no force flag, answer `n`. -/
theorem decline_aborts_without_writes_witness :
    (["app.js"] : List String) ≠ [] ∧
    (Flags.mk false false false false false).force = false ∧
    confirmAffirmative ("n" : String).data = false ∧
    mainRun ⟨false, false, false, false, false⟩ "my-app" (.ok ["app.js"]) "n" =
      some ⟨true, [], 1⟩ :=
  ⟨by decide, by decide, by decide,
   decline_aborts_without_writes ⟨false, false, false, false, false⟩ "my-app"
     ["app.js"] "n" (by decide) (by decide) (by decide)⟩

/-- C7: with `--pg --dev` (any other flags), the manifest has `pg` among
its dependencies, `dotenv` and `nodemon` among its devDependencies, the
`db:createusers` script preloads dotenv, and `models/users.js` and
`db/scripts/users/createTable.js` are written under the destination. -/
theorem pg_dev_assembly (f : Flags) (dir : String)
    (hpg : f.pg = true) (hdev : f.dev = true) :
    ("pg", "^8.7.1") ∈ buildDeps f ∧
    ("dotenv", "^10.0.0") ∈ buildDevDeps f ∧
    ("nodemon", "^2.0.15") ∈ buildDevDeps f ∧
    lookupKey (buildScripts f) "db:createusers" =
      some "node -r dotenv/config ./db/scripts/users/createTable.js" ∧
    FsOp.writeOp (joinPathS dir "models/users.js") MODE_0666 ∈ createOps f dir ∧
    FsOp.writeOp (joinPathS dir "db/scripts/users/createTable.js") MODE_0666 ∈
      createOps f dir := by
  obtain ⟨g, p, d, t, fo⟩ := f
  cases p with
  | false => exact Bool.noConfusion hpg
  | true =>
    cases d with
    | false => exact Bool.noConfusion hdev
    | true =>
      refine ⟨?_, ?_, ?_, ?_, ?_, ?_⟩
      · cases g <;> cases t <;> cases fo <;> decide
      · cases g <;> cases t <;> cases fo <;> decide
      · cases g <;> cases t <;> cases fo <;> decide
      · cases g <;> cases t <;> cases fo <;> decide
      · simp [createOps]
      · simp [createOps]

/-- Witness for C7 at concrete flags `--pg --dev` and destination
`my-app`. -/
theorem pg_dev_assembly_witness :
    (Flags.mk false true true false false).pg = true ∧
    (Flags.mk false true true false false).dev = true ∧
    (("pg", "^8.7.1") ∈ buildDeps ⟨false, true, true, false, false⟩ ∧
     ("dotenv", "^10.0.0") ∈ buildDevDeps ⟨false, true, true, false, false⟩ ∧
     ("nodemon", "^2.0.15") ∈ buildDevDeps ⟨false, true, true, false, false⟩ ∧
     lookupKey (buildScripts ⟨false, true, true, false, false⟩) "db:createusers" =
       some "node -r dotenv/config ./db/scripts/users/createTable.js" ∧
     FsOp.writeOp (joinPathS "my-app" "models/users.js") MODE_0666 ∈
       createOps ⟨false, true, true, false, false⟩ "my-app" ∧
     FsOp.writeOp (joinPathS "my-app" "db/scripts/users/createTable.js") MODE_0666 ∈
       createOps ⟨false, true, true, false, false⟩ "my-app") :=
  ⟨by decide, by decide,
   pg_dev_assembly ⟨false, true, true, false, false⟩ "my-app" (by decide) (by decide)⟩

/-- C9: a `ENOENT` readdir failure (destination does not exist) is
treated as an empty directory: generation proceeds without prompting,
whatever the flags (in particular without `--force`). -/
theorem enoent_proceeds_without_prompt (f : Flags) (dir : String) (answer : String) :
    mainRun f dir .enoent answer = some ⟨false, createOps f dir, 0⟩ := by
  simp [mainRun, emptyDirectoryRes]

/-- C8 counterexample: `copyTemplateMulti` copies in directory-listing
order; for the listing `b.css, a.css` the copy order is `b.css, a.css`,
not lexicographic. -/
theorem copyMulti_listing_order_counterexample :
    copyTemplateMultiNames ["b.css", "a.css"] "css" = ["b.css", "a.css"] ∧
    keysSortedB (copyTemplateMultiNames ["b.css", "a.css"] "css") = false := by
  decide

/-- C8 (amended): the enumeration filters the (non-recursive) directory
listing, preserving the listing's relative order (the result is a
sublist of the listing), keeps exactly the names matched by the `*.ext`
glob, and the glob is case-sensitive; the order is therefore
deterministic only insofar as the listing order is, not lexicographic. -/
theorem copyMulti_filter_semantics (listing : List String) (ext : String) :
    List.Sublist (copyTemplateMultiNames listing ext) listing ∧
    (∀ n, n ∈ copyTemplateMultiNames listing ext ↔
        n ∈ listing ∧ matchStarDotGlob ext.data n.data = true) ∧
    matchStarDotGlob "css".data "style.css".data = true ∧
    matchStarDotGlob "css".data "style.CSS".data = false := by
  refine ⟨List.filter_sublist _, ?_, by decide, by decide⟩
  intro n
  simp [copyTemplateMultiNames, List.mem_filter]

end ExpressCli
